import Mathlib

/-
  Shallow embedding of the attributed-text model (juce_AttributedString.h)
  and the rendering-context state stack (juce_CoreGraphicsContext_mac.h)
  of this repository.  The repository under verification ships only the
  two class headers; the bodies of the member functions are modelled from
  the specification, and each such definition carries a doc comment that
  starts with "Modelled from the spec:".  Data-model fields and their
  default values are taken directly from the headers.
-/

namespace juce

/-- ARGB colour value, as stored by the 32-bit colour type used in the
header (member initialisers such as 0xff000000). -/
abbrev Colour := Nat

/-- Modelled from the spec: the font collaborator is external and is
consumed only as a font descriptor value supporting equality comparison
(spec section 6), so it is embedded as an abstract descriptor. -/
structure Font where
  descriptor : Nat := 0
deriving DecidableEq, Repr

/-- Half-open range of code-unit offsets, as in Range<int> of the header.
The field stop stands for the end of the range. -/
structure Range where
  start : Int := 0
  stop : Int := 0
deriving DecidableEq, Repr

/-- Justification flags (header line 253 initialises to Justification::left,
whose flag value is 1). -/
structure Justification where
  flags : Nat
deriving DecidableEq, Repr

/-- The left justification value. -/
def Justification.left : Justification := ⟨1⟩

/-- Word-wrap behaviour, from the WordWrap enum of the header. -/
inductive WordWrap where
  | none
  | byWord
  | byChar
deriving DecidableEq, Repr

/-- Reading direction, from the ReadingDirection enum of the header. -/
inductive ReadingDirection where
  | natural
  | leftToRight
  | rightToLeft
deriving DecidableEq, Repr

/-- An attribute applied to a range of characters, with the member
defaults of the header (lines 184-202): colour 0xff000000, outline colour
0xff000000, outline width 0, underlined false, ligature 1.  The float
field outlineWidth is embedded as a rational: the model only copies and
compares it, never performs float arithmetic on it. -/
structure Attribute where
  range : Range := {}
  font : Font := {}
  colour : Colour := 0xff000000
  outlineColour : Colour := 0xff000000
  outlineWidth : Rat := 0
  underlined : Bool := false
  ligature : Int := 1
deriving DecidableEq, Repr

/-- The attributed string model, with the member defaults of the header
(lines 248-256).  Float-valued spacing fields are embedded as rationals
(copied and compared only, never involved in float arithmetic). -/
structure AttributedString where
  text : String := ""
  lineSpacing : Rat := 0
  lineHeightMultiple : Rat := 0
  paragraphSpacing : Rat := 0
  paragraphSpacingBefore : Rat := 0
  justification : Justification := Justification.left
  wordWrap : WordWrap := WordWrap.byWord
  readingDirection : ReadingDirection := ReadingDirection.natural
  attributes : List Attribute := []
deriving DecidableEq, Repr

namespace AttributedString

/-- Modelled from the spec: setText replaces the text; existing
attributes are not rewritten (spec section 4.1, and the doc comment at
header lines 64-67: changing the text does not affect any of the colour
or font attributes). -/
def setText (newText : String) (m : AttributedString) : AttributedString :=
  { m with text := newText }

/-- The string constructor of the header (line 53) delegates to setText
on a default-constructed object. -/
def ofString (s : String) : AttributedString :=
  setText s {}

/-- Modelled from the spec: the font of the last existing attribute, used
as the default for append; a default-constructed font when there are no
attributes. -/
def lastFont (m : AttributedString) : Font :=
  ((m.attributes.getLast?).map Attribute.font).getD {}

/-- Modelled from the spec: the colour of the last existing attribute,
used as the default for append; black when there are no attributes. -/
def lastColour (m : AttributedString) : Colour :=
  ((m.attributes.getLast?).map Attribute.colour).getD 0xff000000

/-- Modelled from the spec: the four append overloads (header lines
70-77) extend the text and append one new attribute covering exactly the
appended span, beginning where the text previously ended, with the font
and colour taken from the supplied override when given and otherwise
defaulted from the last existing attribute (spec section 4.1). -/
def appendStr (s : String) (fo : Option Font) (co : Option Colour)
    (m : AttributedString) : AttributedString :=
  { m with
    text := m.text ++ s
    attributes := m.attributes ++
      [{ range := ⟨(m.text.length : Int), (m.text.length : Int) + (s.length : Int)⟩
         font := fo.getD m.lastFont
         colour := co.getD m.lastColour }] }

/-- Modelled from the spec: shifts the range of an attribute by an
offset, keeping every other field (used when appending another model). -/
def rebase (offset : Int) (a : Attribute) : Attribute :=
  { a with range := ⟨a.range.start + offset, a.range.stop + offset⟩ }

/-- Modelled from the spec: append(other) concatenates the text and
re-bases (offsets by the current length) all of the other model
attributes, appending them in order; only text and attributes are copied,
no paragraph style field (spec section 4.1, header lines 79-83). -/
def appendModel (m : AttributedString) (other : AttributedString) : AttributedString :=
  { m with
    text := m.text ++ other.text
    attributes := m.attributes ++ other.attributes.map (rebase (m.text.length : Int)) }

/-- Modelled from the spec: clear empties the text and the attributes and
leaves the paragraph style fields untouched (spec section 4.1, header
lines 85-89). -/
def clear (m : AttributedString) : AttributedString :=
  { m with text := "", attributes := [] }

/-- Modelled from the spec: splits one attribute at a boundary when the
boundary falls strictly inside it, duplicating all other fields and only
changing the range (spec section 4.1). -/
def splitOne (p : Int) (a : Attribute) : List Attribute :=
  if a.range.start < p ∧ p < a.range.stop then
    [{ a with range := ⟨a.range.start, p⟩ }, { a with range := ⟨p, a.range.stop⟩ }]
  else [a]

/-- Modelled from the spec: splits every attribute of the list that
strictly contains the boundary (on a contiguous partition at most one
attribute does). -/
def splitRangesAt (p : Int) : List Attribute → List Attribute
  | [] => []
  | a :: rest => splitOne p a ++ splitRangesAt p rest

/-- Modelled from the spec: overwrites, through upd, the single field
being set on every attribute that lies fully inside the clamped range,
leaving attributes outside the range untouched (spec section 4.1). -/
def overwrite (upd : Attribute → Attribute) (r : Range)
    (l : List Attribute) : List Attribute :=
  l.map fun a =>
    if r.start ≤ a.range.start ∧ a.range.stop ≤ r.stop then upd a else a

/-- Modelled from the spec: the supplied range is intersected with
[0, len) before being applied (spec section 4.1). -/
def clampRange (r : Range) (len : Int) : Range :=
  ⟨max r.start 0, min r.stop len⟩

/-- Modelled from the spec: applies a single-field update over an already
clamped range: an empty or reversed range is a silent no-op; otherwise the
attributes overlapping the range boundaries are split at them and the
field is overwritten on every attribute fully inside the range. -/
def applyClamped (upd : Attribute → Attribute) (r : Range)
    (m : AttributedString) : AttributedString :=
  if r.stop ≤ r.start then m
  else
    { m with attributes :=
        overwrite upd r (splitRangesAt r.stop (splitRangesAt r.start m.attributes)) }

/-- Modelled from the spec: common body of the range-scoped attribute
setters: clamp the supplied range to [0, length(text)), then split and
overwrite (spec section 4.1). -/
def applyToRange (upd : Attribute → Attribute) (r : Range)
    (m : AttributedString) : AttributedString :=
  applyClamped upd (clampRange r (m.text.length : Int)) m

/-- Modelled from the spec: setColour over a range (header line 218). -/
def setColour (r : Range) (c : Colour) (m : AttributedString) : AttributedString :=
  applyToRange (fun a => { a with colour := c }) r m

/-- Modelled from the spec: setOutlineColour over a range (header line 221). -/
def setOutlineColour (r : Range) (c : Colour) (m : AttributedString) : AttributedString :=
  applyToRange (fun a => { a with outlineColour := c }) r m

/-- Modelled from the spec: setOutlineWidth over a range (header line 224). -/
def setOutlineWidth (r : Range) (w : Rat) (m : AttributedString) : AttributedString :=
  applyToRange (fun a => { a with outlineWidth := w }) r m

/-- Modelled from the spec: setFont over a range (header line 236). -/
def setFont (r : Range) (f : Font) (m : AttributedString) : AttributedString :=
  applyToRange (fun a => { a with font := f }) r m

/-- Modelled from the spec: setUnderlined over a range (header line 239). -/
def setUnderlined (r : Range) (u : Bool) (m : AttributedString) : AttributedString :=
  applyToRange (fun a => { a with underlined := u }) r m

/-- Modelled from the spec: setLigature over a range (header line 242). -/
def setLigature (r : Range) (lg : Int) (m : AttributedString) : AttributedString :=
  applyToRange (fun a => { a with ligature := lg }) r m

/-- Modelled from the spec: the whole-string setColour overload (header
line 227) applies the colour across the entire text. -/
def setColourAll (c : Colour) (m : AttributedString) : AttributedString :=
  setColour ⟨0, (m.text.length : Int)⟩ c m

/-- Modelled from the spec: the whole-string setOutlineColour overload
(header line 230) applies the outline colour across the entire text. -/
def setOutlineColourAll (c : Colour) (m : AttributedString) : AttributedString :=
  setOutlineColour ⟨0, (m.text.length : Int)⟩ c m

/-- Modelled from the spec: the whole-string setOutlineWidth overload
(header line 233) applies the outline width across the entire text. -/
def setOutlineWidthAll (w : Rat) (m : AttributedString) : AttributedString :=
  setOutlineWidth ⟨0, (m.text.length : Int)⟩ w m

/-- Modelled from the spec: the whole-string setFont overload (header
line 245) applies the font across the entire text. -/
def setFontAll (f : Font) (m : AttributedString) : AttributedString :=
  setFont ⟨0, (m.text.length : Int)⟩ f m

end AttributedString

/-- First range start of an attribute list, when the list is non-empty. -/
def headStart : List Attribute → Option Int
  | [] => none
  | a :: _ => some a.range.start

/-- Last range end of an attribute list, when the list is non-empty. -/
def lastStop : List Attribute → Option Int
  | [] => none
  | [a] => some a.range.stop
  | _ :: b :: rest => lastStop (b :: rest)

/-- Contiguity of an attribute list: the range end of attribute i equals
the range start of attribute i + 1 (the documented invariant at header
lines 37-40). -/
def contiguous : List Attribute → Prop
  | [] => True
  | [_] => True
  | a :: b :: rest => a.range.stop = b.range.start ∧ contiguous (b :: rest)

instance instDecContiguous : (l : List Attribute) → Decidable (contiguous l)
  | [] => isTrue trivial
  | [_] => isTrue trivial
  | _ :: b :: rest =>
      @instDecidableAnd _ _ _ (instDecContiguous (b :: rest))

/-- The full partition invariant of the model: the attribute list is
contiguous, a non-empty attribute list starts at offset 0 and ends at the
text length, and a non-empty text has a non-empty attribute list. -/
def Invariant (m : AttributedString) : Prop :=
  contiguous m.attributes ∧
  (m.attributes = [] ∨
    (headStart m.attributes = some 0 ∧
     lastStop m.attributes = some (m.text.length : Int))) ∧
  (m.text ≠ "" → m.attributes ≠ [])

instance instDecInvariant (m : AttributedString) : Decidable (Invariant m) := by
  unfold Invariant
  infer_instance

/-- One call of the mutation interface named by the invariant property:
the four text-append overloads, the six range-scoped setters, the four
whole-string setter overloads, and clear. -/
inductive Op where
  | append (s : String) (fo : Option Font) (co : Option Colour)
  | setColourR (r : Range) (c : Colour)
  | setOutlineColourR (r : Range) (c : Colour)
  | setOutlineWidthR (r : Range) (w : Rat)
  | setFontR (r : Range) (f : Font)
  | setUnderlinedR (r : Range) (u : Bool)
  | setLigatureR (r : Range) (lg : Int)
  | setColourW (c : Colour)
  | setOutlineColourW (c : Colour)
  | setOutlineWidthW (w : Rat)
  | setFontW (f : Font)
  | clearOp
deriving DecidableEq, Repr

/-- Dispatches one mutation call to the corresponding model operation. -/
def applyOp (op : Op) (m : AttributedString) : AttributedString :=
  match op with
  | .append s fo co => m.appendStr s fo co
  | .setColourR r c => m.setColour r c
  | .setOutlineColourR r c => m.setOutlineColour r c
  | .setOutlineWidthR r w => m.setOutlineWidth r w
  | .setFontR r f => m.setFont r f
  | .setUnderlinedR r u => m.setUnderlined r u
  | .setLigatureR r lg => m.setLigature r lg
  | .setColourW c => m.setColourAll c
  | .setOutlineColourW c => m.setOutlineColourAll c
  | .setOutlineWidthW w => m.setOutlineWidthAll w
  | .setFontW f => m.setFontAll f
  | .clearOp => m.clear

/-- Applies a sequence of mutation calls from left to right. -/
def applySeq (ops : List Op) (m : AttributedString) : AttributedString :=
  ops.foldl (fun acc op => applyOp op acc) m

/-- Axis-aligned clip rectangle of the rendering context, with integer
bounds as in Rectangle<int> of the context header. -/
structure Rect where
  left : Int
  top : Int
  right : Int
  bottom : Int
deriving DecidableEq, Repr

/-- Intersection of two clip rectangles. -/
def Rect.inter (a b : Rect) : Rect :=
  ⟨max a.left b.left, max a.top b.top, min a.right b.right, min a.bottom b.bottom⟩

/-- Modelled from the spec: the fill descriptor consumed by setFill is
external and only stored and compared, so it is embedded as an abstract
descriptor. -/
structure FillType where
  descriptor : Nat := 0
deriving DecidableEq, Repr

/-- Modelled from the spec: the observable state of the rendering
context named by the save/restore parity property: current fill, font,
transform and clip bounds (spec sections 4.2 and the SavedState struct of
the context header, lines 133-150).  The transform is embedded as the
list of transforms applied so far. -/
structure GState where
  fillType : FillType
  font : Font
  transform : List Int
  clip : Rect
deriving DecidableEq, Repr

/-- One call on the rendering context: the state-changing calls of the
drawing-surface contract together with saveState and restoreState. -/
inductive COp where
  | setFill (f : FillType)
  | setFontOp (f : Font)
  | addTransform (t : Int)
  | clipToRectangle (r : Rect)
  | saveState
  | restoreState
deriving DecidableEq, Repr

/-- Modelled from the spec: one step of the rendering context.  The
state-changing calls modify only the current state; saveState pushes a
snapshot of the current state; restoreState pops the stack and must
exactly restore fill, font, transform and clip to the state at the
matching saveState (spec sections 4.2 and the state-stack discipline of
the context header).  A restoreState on an empty stack is a no-op, since
the contract pairs every restoreState with a saveState. -/
def stepC (c : GState × List GState) (op : COp) : GState × List GState :=
  match op with
  | .setFill f => ({ c.1 with fillType := f }, c.2)
  | .setFontOp f => ({ c.1 with font := f }, c.2)
  | .addTransform t => ({ c.1 with transform := t :: c.1.transform }, c.2)
  | .clipToRectangle r => ({ c.1 with clip := c.1.clip.inter r }, c.2)
  | .saveState => (c.1, c.1 :: c.2)
  | .restoreState =>
      match c.2 with
      | [] => (c.1, [])
      | s₀ :: rest => (s₀, rest)

/-- Runs a sequence of rendering-context calls from left to right. -/
def execC (ops : List COp) (c : GState × List GState) : GState × List GState :=
  ops.foldl stepC c

/-- A call sequence whose saveState calls are each paired with a matching
restoreState, with arbitrary state-changing calls in between. -/
inductive Balanced : List COp → Prop
  | nil : Balanced []
  | fillStep (f w) : Balanced w → Balanced (COp.setFill f :: w)
  | fontStep (f w) : Balanced w → Balanced (COp.setFontOp f :: w)
  | transformStep (t w) : Balanced w → Balanced (COp.addTransform t :: w)
  | clipStep (r w) : Balanced w → Balanced (COp.clipToRectangle r :: w)
  | nest (w₁ w₂) : Balanced w₁ → Balanced w₂ →
      Balanced (COp.saveState :: w₁ ++ COp.restoreState :: w₂)

/-- A sequence made of saveState calls each paired with a matching
restoreState, with arbitrary (balanced) calls strictly inside each
save/restore span. -/
inductive PairedSeq : List COp → Prop
  | nil : PairedSeq []
  | cons (w p) : Balanced w → PairedSeq p →
      PairedSeq (COp.saveState :: w ++ COp.restoreState :: p)

open AttributedString

theorem splitOne_ne_nil (p : Int) (a : Attribute) : splitOne p a ≠ [] := by
  unfold splitOne
  split <;> simp

theorem headStart_splitOne (p : Int) (a : Attribute) :
    headStart (splitOne p a) = some a.range.start := by
  unfold splitOne
  split <;> rfl

theorem lastStop_splitOne (p : Int) (a : Attribute) :
    lastStop (splitOne p a) = some a.range.stop := by
  unfold splitOne
  split <;> rfl

theorem contiguous_splitOne (p : Int) (a : Attribute) : contiguous (splitOne p a) := by
  unfold splitOne
  split
  · exact ⟨rfl, trivial⟩
  · trivial

theorem headStart_append (l₁ l₂ : List Attribute) (h : l₁ ≠ []) :
    headStart (l₁ ++ l₂) = headStart l₁ := by
  cases l₁ with
  | nil => exact absurd rfl h
  | cons a t => rfl

theorem lastStop_append (l₁ l₂ : List Attribute) (h : l₂ ≠ []) :
    lastStop (l₁ ++ l₂) = lastStop l₂ := by
  induction l₁ with
  | nil => rfl
  | cons a t ih =>
    cases hq : t ++ l₂ with
    | nil => exact absurd (List.append_eq_nil.mp hq).2 h
    | cons b q =>
      calc lastStop ((a :: t) ++ l₂) = lastStop (a :: b :: q) := by
            rw [List.cons_append, hq]
        _ = lastStop (b :: q) := rfl
        _ = lastStop (t ++ l₂) := by rw [hq]
        _ = lastStop l₂ := ih

theorem splitRangesAt_ne_nil (p : Int) (l : List Attribute) (h : l ≠ []) :
    splitRangesAt p l ≠ [] := by
  cases l with
  | nil => exact absurd rfl h
  | cons a rest =>
    intro hc
    exact splitOne_ne_nil p a (List.append_eq_nil.mp hc).1

theorem headStart_splitRangesAt (p : Int) (l : List Attribute) :
    headStart (splitRangesAt p l) = headStart l := by
  cases l with
  | nil => rfl
  | cons a rest =>
    show headStart (splitOne p a ++ splitRangesAt p rest) = headStart (a :: rest)
    rw [headStart_append _ _ (splitOne_ne_nil p a), headStart_splitOne]
    rfl

theorem lastStop_splitRangesAt (p : Int) (l : List Attribute) :
    lastStop (splitRangesAt p l) = lastStop l := by
  induction l with
  | nil => rfl
  | cons a rest ih =>
    cases rest with
    | nil =>
      show lastStop (splitOne p a ++ []) = lastStop [a]
      rw [List.append_nil, lastStop_splitOne]
      rfl
    | cons b q =>
      show lastStop (splitOne p a ++ splitRangesAt p (b :: q)) = lastStop (a :: b :: q)
      rw [lastStop_append _ _ (splitRangesAt_ne_nil p _ (by simp)), ih]
      simp only [lastStop]

theorem contiguous_append (l₁ l₂ : List Attribute) (h₁ : contiguous l₁)
    (h₂ : contiguous l₂)
    (hmid : ∀ x y, lastStop l₁ = some x → headStart l₂ = some y → x = y) :
    contiguous (l₁ ++ l₂) := by
  induction l₁ with
  | nil => simpa using h₂
  | cons a t ih =>
    cases t with
    | nil =>
      cases l₂ with
      | nil => trivial
      | cons b q => exact ⟨hmid _ _ rfl rfl, h₂⟩
    | cons b q =>
      obtain ⟨hab, ht⟩ := h₁
      exact ⟨hab, ih ht (fun x y hx hy => hmid x y hx hy)⟩

theorem contiguous_splitRangesAt (p : Int) (l : List Attribute)
    (h : contiguous l) : contiguous (splitRangesAt p l) := by
  induction l with
  | nil => trivial
  | cons a rest ih =>
    have hrest : contiguous rest := by
      cases rest with
      | nil => trivial
      | cons b q => exact h.2
    refine contiguous_append _ _ (contiguous_splitOne p a) (ih hrest) ?_
    intro x y hx hy
    rw [lastStop_splitOne] at hx
    rw [headStart_splitRangesAt] at hy
    injection hx with hx
    cases rest with
    | nil => cases hy
    | cons b q =>
      injection hy with hy
      obtain ⟨hab, _⟩ := h
      rw [← hx, ← hy]
      exact hab

theorem headStart_map (g : Attribute → Attribute)
    (hg : ∀ a, (g a).range = a.range) (l : List Attribute) :
    headStart (l.map g) = headStart l := by
  cases l with
  | nil => rfl
  | cons a t =>
    show some (g a).range.start = some a.range.start
    rw [hg]

theorem lastStop_map (g : Attribute → Attribute)
    (hg : ∀ a, (g a).range = a.range) (l : List Attribute) :
    lastStop (l.map g) = lastStop l := by
  induction l with
  | nil => rfl
  | cons a t ih =>
    cases t with
    | nil =>
      show some (g a).range.stop = some a.range.stop
      rw [hg]
    | cons b q =>
      show lastStop (g a :: g b :: q.map g) = lastStop (a :: b :: q)
      calc lastStop (g a :: g b :: q.map g) = lastStop (g b :: q.map g) := by
            simp only [lastStop]
        _ = lastStop ((b :: q).map g) := rfl
        _ = lastStop (b :: q) := ih
        _ = lastStop (a :: b :: q) := by simp only [lastStop]

theorem contiguous_map (g : Attribute → Attribute)
    (hg : ∀ a, (g a).range = a.range) (l : List Attribute)
    (h : contiguous l) : contiguous (l.map g) := by
  induction l with
  | nil => trivial
  | cons a t ih =>
    cases t with
    | nil => trivial
    | cons b q =>
      obtain ⟨hab, ht⟩ := h
      exact ⟨by rw [hg, hg]; exact hab, ih ht⟩

theorem overwrite_rangePreserving (upd : Attribute → Attribute) (r : Range)
    (hupd : ∀ a, (upd a).range = a.range) :
    ∀ a, ((fun a =>
      if r.start ≤ a.range.start ∧ a.range.stop ≤ r.stop then upd a else a) a).range
        = a.range := by
  intro a
  dsimp only
  split
  · exact hupd a
  · rfl

theorem headStart_overwrite (upd : Attribute → Attribute) (r : Range)
    (hupd : ∀ a, (upd a).range = a.range) (l : List Attribute) :
    headStart (overwrite upd r l) = headStart l :=
  headStart_map _ (overwrite_rangePreserving upd r hupd) l

theorem lastStop_overwrite (upd : Attribute → Attribute) (r : Range)
    (hupd : ∀ a, (upd a).range = a.range) (l : List Attribute) :
    lastStop (overwrite upd r l) = lastStop l :=
  lastStop_map _ (overwrite_rangePreserving upd r hupd) l

theorem contiguous_overwrite (upd : Attribute → Attribute) (r : Range)
    (hupd : ∀ a, (upd a).range = a.range) (l : List Attribute)
    (h : contiguous l) : contiguous (overwrite upd r l) :=
  contiguous_map _ (overwrite_rangePreserving upd r hupd) l h

theorem overwrite_ne_nil (upd : Attribute → Attribute) (r : Range)
    (l : List Attribute) (h : l ≠ []) : overwrite upd r l ≠ [] := by
  unfold overwrite
  simpa using h

/-- No attribute of the list strictly contains the boundary p. -/
def noStraddle (p : Int) (l : List Attribute) : Prop :=
  ∀ a ∈ l, ¬(a.range.start < p ∧ p < a.range.stop)

theorem splitOne_of_noStraddle (p : Int) (a : Attribute)
    (h : ¬(a.range.start < p ∧ p < a.range.stop)) : splitOne p a = [a] := by
  unfold splitOne
  exact if_neg h

theorem splitRangesAt_of_noStraddle (p : Int) (l : List Attribute)
    (h : noStraddle p l) : splitRangesAt p l = l := by
  induction l with
  | nil => rfl
  | cons a rest ih =>
    show splitOne p a ++ splitRangesAt p rest = a :: rest
    rw [splitOne_of_noStraddle p a (h a (by simp)),
        ih (fun b hb => h b (by simp [hb]))]
    rfl

theorem noStraddle_splitOne_self (p : Int) (a : Attribute) :
    noStraddle p (splitOne p a) := by
  unfold splitOne
  split
  · intro b hb
    simp only [List.mem_cons, List.mem_singleton] at hb
    rcases hb with hb | hb | hb
    · subst hb; dsimp; omega
    · subst hb; dsimp; omega
    · cases hb
  · intro b hb
    simp only [List.mem_singleton] at hb
    subst hb
    assumption

theorem noStraddle_splitRangesAt_self (p : Int) (l : List Attribute) :
    noStraddle p (splitRangesAt p l) := by
  induction l with
  | nil => intro b hb; cases hb
  | cons a rest ih =>
    intro b hb
    rcases List.mem_append.mp hb with hb | hb
    · exact noStraddle_splitOne_self p a b hb
    · exact ih b hb

theorem noStraddle_splitOne (p q : Int) (a : Attribute)
    (h : ¬(a.range.start < p ∧ p < a.range.stop)) :
    noStraddle p (splitOne q a) := by
  unfold splitOne
  by_cases hq : a.range.start < q ∧ q < a.range.stop
  · rw [if_pos hq]
    intro b hb
    simp only [List.mem_cons, List.mem_singleton] at hb
    rcases hb with hb | hb | hb
    · subst hb; dsimp; omega
    · subst hb; dsimp; omega
    · cases hb
  · rw [if_neg hq]
    intro b hb
    simp only [List.mem_singleton] at hb
    subst hb
    exact h

theorem noStraddle_splitRangesAt (p q : Int) (l : List Attribute)
    (h : noStraddle p l) : noStraddle p (splitRangesAt q l) := by
  induction l with
  | nil => intro b hb; cases hb
  | cons a rest ih =>
    intro b hb
    rcases List.mem_append.mp hb with hb | hb
    · exact noStraddle_splitOne p q a (h a (by simp)) b hb
    · exact ih (fun x hx => h x (by simp [hx])) b hb

theorem noStraddle_overwrite (upd : Attribute → Attribute) (r : Range)
    (hupd : ∀ a, (upd a).range = a.range) (p : Int) (l : List Attribute)
    (h : noStraddle p l) : noStraddle p (overwrite upd r l) := by
  intro b hb
  unfold overwrite at hb
  rcases List.mem_map.mp hb with ⟨a, ha, hab⟩
  have hr : b.range = a.range := by
    rw [← hab]
    exact overwrite_rangePreserving upd r hupd a
  rw [hr]
  exact h a ha

theorem overwrite_overwrite (upd : Attribute → Attribute) (r : Range)
    (hupd2 : ∀ a, upd (upd a) = upd a)
    (hupd : ∀ a, (upd a).range = a.range) (l : List Attribute) :
    overwrite upd r (overwrite upd r l) = overwrite upd r l := by
  unfold overwrite
  rw [List.map_map]
  apply List.map_congr_left
  intro a _
  dsimp only [Function.comp]
  by_cases hc : r.start ≤ a.range.start ∧ a.range.stop ≤ r.stop
  · rw [if_pos hc, if_pos (by rw [hupd a]; exact hc), hupd2]
  · rw [if_neg hc, if_neg hc]

theorem invariant_mk_attributes (m : AttributedString) (l : List Attribute)
    (hc : contiguous l)
    (hends : l = [] ∨
      (headStart l = some 0 ∧ lastStop l = some (m.text.length : Int)))
    (hne : m.text ≠ "" → l ≠ []) :
    Invariant { m with attributes := l } :=
  ⟨hc, hends, hne⟩

theorem invariant_applyClamped (upd : Attribute → Attribute)
    (hupd : ∀ a, (upd a).range = a.range) (r : Range) (m : AttributedString)
    (h : Invariant m) : Invariant (applyClamped upd r m) := by
  unfold applyClamped
  split
  · exact h
  · obtain ⟨hc, hends, hne⟩ := h
    refine invariant_mk_attributes m _ ?_ ?_ ?_
    · exact contiguous_overwrite _ _ hupd _
        (contiguous_splitRangesAt _ _ (contiguous_splitRangesAt _ _ hc))
    · rcases hends with hnil | ⟨h0, hL⟩
      · left
        rw [hnil]
        rfl
      · right
        constructor
        · rw [headStart_overwrite _ _ hupd, headStart_splitRangesAt,
              headStart_splitRangesAt]
          exact h0
        · rw [lastStop_overwrite _ _ hupd, lastStop_splitRangesAt,
              lastStop_splitRangesAt]
          exact hL
    · intro ht
      exact overwrite_ne_nil _ _ _
        (splitRangesAt_ne_nil _ _ (splitRangesAt_ne_nil _ _ (hne ht)))

theorem invariant_applyToRange (upd : Attribute → Attribute)
    (hupd : ∀ a, (upd a).range = a.range) (r : Range) (m : AttributedString)
    (h : Invariant m) : Invariant (applyToRange upd r m) :=
  invariant_applyClamped upd hupd _ m h

theorem invariant_appendStr (s : String) (fo : Option Font) (co : Option Colour)
    (m : AttributedString) (h : Invariant m) : Invariant (m.appendStr s fo co) := by
  obtain ⟨hc, hends, hne⟩ := h
  unfold AttributedString.appendStr
  refine ⟨?_, ?_, ?_⟩
  · refine contiguous_append _ _ hc trivial ?_
    intro x y hx hy
    rcases hends with hnil | hr
    · rw [hnil] at hx
      cases hx
    · rw [hr.2] at hx
      injection hx with hx
      simp only [headStart] at hy
      injection hy with hy
      rw [← hx, ← hy]
  · right
    constructor
    · by_cases hA : m.attributes = []
      · rw [hA]
        simp only [List.nil_append, headStart]
        by_cases ht : m.text = ""
        · rw [ht]
          rfl
        · exact absurd hA (hne ht)
      · rw [headStart_append _ _ hA]
        rcases hends with hnil | hr
        · exact absurd hnil hA
        · exact hr.1
    · rw [lastStop_append _ _ (by simp)]
      simp only [lastStop]
      have hlen : (((m.text ++ s).length : Nat) : Int)
          = (m.text.length : Int) + (s.length : Int) := by
        rw [String.length_append]
        push_cast
        ring
      rw [hlen]
  · intro _
    simp

theorem invariant_clear (m : AttributedString) : Invariant m.clear :=
  ⟨trivial, Or.inl rfl, fun hh => absurd rfl hh⟩

theorem invariant_applyOp (op : Op) (m : AttributedString) (h : Invariant m) :
    Invariant (applyOp op m) := by
  cases op with
  | append s fo co => exact invariant_appendStr s fo co m h
  | setColourR r c =>
      exact invariant_applyToRange (fun a => { a with colour := c })
        (fun a => rfl) r m h
  | setOutlineColourR r c =>
      exact invariant_applyToRange (fun a => { a with outlineColour := c })
        (fun a => rfl) r m h
  | setOutlineWidthR r w =>
      exact invariant_applyToRange (fun a => { a with outlineWidth := w })
        (fun a => rfl) r m h
  | setFontR r f =>
      exact invariant_applyToRange (fun a => { a with font := f })
        (fun a => rfl) r m h
  | setUnderlinedR r u =>
      exact invariant_applyToRange (fun a => { a with underlined := u })
        (fun a => rfl) r m h
  | setLigatureR r lg =>
      exact invariant_applyToRange (fun a => { a with ligature := lg })
        (fun a => rfl) r m h
  | setColourW c =>
      exact invariant_applyToRange (fun a => { a with colour := c })
        (fun a => rfl) ⟨0, (m.text.length : Int)⟩ m h
  | setOutlineColourW c =>
      exact invariant_applyToRange (fun a => { a with outlineColour := c })
        (fun a => rfl) ⟨0, (m.text.length : Int)⟩ m h
  | setOutlineWidthW w =>
      exact invariant_applyToRange (fun a => { a with outlineWidth := w })
        (fun a => rfl) ⟨0, (m.text.length : Int)⟩ m h
  | setFontW f =>
      exact invariant_applyToRange (fun a => { a with font := f })
        (fun a => rfl) ⟨0, (m.text.length : Int)⟩ m h
  | clearOp => exact invariant_clear m

theorem invariant_applySeq (ops : List Op) (m : AttributedString)
    (h : Invariant m) : Invariant (applySeq ops m) := by
  induction ops generalizing m with
  | nil => exact h
  | cons op rest ih => exact ih (applyOp op m) (invariant_applyOp op m h)

theorem applyClamped_attributes (upd : Attribute → Attribute) (r : Range)
    (m : AttributedString) (h : ¬ r.stop ≤ r.start) :
    (applyClamped upd r m).attributes
      = overwrite upd r (splitRangesAt r.stop (splitRangesAt r.start m.attributes)) := by
  unfold applyClamped
  rw [if_neg h]

theorem applyClamped_of_degenerate (upd : Attribute → Attribute) (r : Range)
    (m : AttributedString) (h : r.stop ≤ r.start) : applyClamped upd r m = m := by
  unfold applyClamped
  rw [if_pos h]

theorem text_applyClamped (upd : Attribute → Attribute) (r : Range)
    (m : AttributedString) : (applyClamped upd r m).text = m.text := by
  unfold applyClamped
  split <;> rfl

theorem text_applyToRange (upd : Attribute → Attribute) (r : Range)
    (m : AttributedString) : (applyToRange upd r m).text = m.text :=
  text_applyClamped upd _ m

theorem clampRange_whole (L : Int) : clampRange ⟨0, L⟩ L = ⟨0, L⟩ := by
  unfold clampRange
  simp

theorem setFontAll_eq (F : Font) (m : AttributedString) :
    AttributedString.setFontAll F m
      = applyClamped (fun a => { a with font := F })
          ⟨0, (m.text.length : Int)⟩ m := by
  show applyClamped (fun a => { a with font := F })
      (clampRange ⟨0, (m.text.length : Int)⟩ (m.text.length : Int)) m = _
  rw [clampRange_whole]

theorem execC_append (l₁ l₂ : List COp) (c : GState × List GState) :
    execC (l₁ ++ l₂) c = execC l₂ (execC l₁ c) :=
  List.foldl_append _ _ l₁ l₂

theorem balanced_stack (w : List COp) (hb : Balanced w) :
    ∀ s st, ∃ s₁, execC w (s, st) = (s₁, st) := by
  induction hb with
  | nil => exact fun s st => ⟨s, rfl⟩
  | fillStep f w hw ih => exact fun s st => ih _ st
  | fontStep f w hw ih => exact fun s st => ih _ st
  | transformStep t w hw ih => exact fun s st => ih _ st
  | clipStep r w hw ih => exact fun s st => ih _ st
  | nest w₁ w₂ hw₁ hw₂ ih₁ ih₂ =>
    intro s st
    obtain ⟨s₁, h₁⟩ := ih₁ s (s :: st)
    obtain ⟨s₂, h₂⟩ := ih₂ s st
    refine ⟨s₂, ?_⟩
    calc execC (COp.saveState :: w₁ ++ COp.restoreState :: w₂) (s, st)
        = execC (w₁ ++ COp.restoreState :: w₂) (s, s :: st) := rfl
      _ = execC (COp.restoreState :: w₂) (execC w₁ (s, s :: st)) :=
          execC_append w₁ _ _
      _ = execC (COp.restoreState :: w₂) (s₁, s :: st) := by rw [h₁]
      _ = execC w₂ (s, st) := rfl
      _ = (s₂, st) := h₂

theorem pairedSeq_exec (w : List COp) (hp : PairedSeq w) :
    ∀ s st, execC w (s, st) = (s, st) := by
  induction hp with
  | nil => exact fun s st => rfl
  | cons w p hb hsub ih =>
    intro s st
    obtain ⟨s₁, h₁⟩ := balanced_stack w hb s (s :: st)
    calc execC (COp.saveState :: w ++ COp.restoreState :: p) (s, st)
        = execC (w ++ COp.restoreState :: p) (s, s :: st) := rfl
      _ = execC (COp.restoreState :: p) (execC w (s, s :: st)) :=
          execC_append w _ _
      _ = execC (COp.restoreState :: p) (s₁, s :: st) := by rw [h₁]
      _ = execC p (s, st) := rfl
      _ = (s, st) := ih s st

theorem clampRange_idem (r : Range) (L : Int) :
    clampRange (clampRange r L) L = clampRange r L := by
  unfold clampRange
  rw [max_assoc, max_self, min_assoc, min_self]

theorem applyToRange_clamp (upd : Attribute → Attribute) (r : Range)
    (m : AttributedString) :
    applyToRange upd r m
      = applyToRange upd (clampRange r (m.text.length : Int)) m := by
  unfold applyToRange
  rw [clampRange_idem]

theorem applyToRange_degenerate (upd : Attribute → Attribute) (r : Range)
    (m : AttributedString) (h : r.stop ≤ r.start) : applyToRange upd r m = m := by
  unfold applyToRange
  apply applyClamped_of_degenerate
  unfold clampRange
  dsimp
  exact le_trans (min_le_left _ _) (le_trans h (le_max_left _ _))

/-- C10: a default-constructed AttributedString has empty text, zero
attributes, justification left, word-wrap byWord, reading direction
natural and all four spacing fields equal to 0; a default-constructed
Attribute has colour 0xff000000, outline colour 0xff000000, outline
width 0, underlined false and ligature mode 1. -/
theorem C10_default_values :
    (({} : AttributedString).text = "" ∧
     ({} : AttributedString).attributes = [] ∧
     ({} : AttributedString).justification = Justification.left ∧
     ({} : AttributedString).wordWrap = WordWrap.byWord ∧
     ({} : AttributedString).readingDirection = ReadingDirection.natural ∧
     ({} : AttributedString).lineSpacing = 0 ∧
     ({} : AttributedString).lineHeightMultiple = 0 ∧
     ({} : AttributedString).paragraphSpacing = 0 ∧
     ({} : AttributedString).paragraphSpacingBefore = 0) ∧
    (({} : Attribute).colour = 0xff000000 ∧
     ({} : Attribute).outlineColour = 0xff000000 ∧
     ({} : Attribute).outlineWidth = 0 ∧
     ({} : Attribute).underlined = false ∧
     ({} : Attribute).ligature = 1) :=
  ⟨⟨rfl, rfl, rfl, rfl, rfl, rfl, rfl, rfl, rfl⟩, rfl, rfl, rfl, rfl, rfl⟩

/-- C4: the claim asks for a single default attribute spanning the text,
but the string constructor delegates to setText (header line 53), and
setText as specified leaves the attribute list untouched, so a model
constructed from the string "a" has text "a" and an empty attribute list:
offset 0 then belongs to no attribute, contradicting the invariant
documented at header lines 37-40.  This theorem evaluates the model at
the failing input. -/
theorem C4_ofString_no_attributes :
    (AttributedString.ofString "a").text = "a" ∧
    (AttributedString.ofString "a").attributes = [] ∧
    (AttributedString.ofString "a").attributes.length ≠ 1 :=
  ⟨rfl, rfl, by decide⟩

/-- C3: setText replaces the text and leaves the attribute list exactly
as it was, for every model and every new text, also when the new length
differs from the old. -/
theorem C3_setText_keeps_attributes (m : AttributedString) (s : String) :
    (AttributedString.setText s m).text = s ∧
    (AttributedString.setText s m).attributes = m.attributes :=
  ⟨rfl, rfl⟩

/-- C2: on a model with text of length 10 and a single default attribute
spanning the range 0 to 10, setColour over the range 3 to 7 with red
yields exactly three attributes ranged 0-3, 3-7 and 7-10; the middle one
is red and the two outer ones keep every field of the original default
attribute. -/
theorem C2_setColour_range_split :
    AttributedString.setColour ⟨3, 7⟩ 0xffff0000
        { text := "0123456789", attributes := [{ range := ⟨0, 10⟩ }] }
      = { text := "0123456789",
          attributes := [{ range := ⟨0, 3⟩ },
                         { range := ⟨3, 7⟩, colour := 0xffff0000 },
                         { range := ⟨7, 10⟩ }] } := by
  decide

/-- C6: appending another model concatenates the text, appends the other
model attributes in order with their ranges offset by the previous text
length, and leaves every paragraph style field unchanged; in particular
appending B (text XY, one attribute) to A (text AB, one attribute) yields
text ABXY with two attributes ranged 0-2 and 2-4, the second keeping the
original fields of the B attribute. -/
theorem C6_append_model :
    (∀ A B : AttributedString,
      (A.appendModel B).text = A.text ++ B.text ∧
      (A.appendModel B).attributes
        = A.attributes
          ++ B.attributes.map (AttributedString.rebase (A.text.length : Int)) ∧
      (A.appendModel B).justification = A.justification ∧
      (A.appendModel B).wordWrap = A.wordWrap ∧
      (A.appendModel B).readingDirection = A.readingDirection ∧
      (A.appendModel B).lineSpacing = A.lineSpacing ∧
      (A.appendModel B).lineHeightMultiple = A.lineHeightMultiple ∧
      (A.appendModel B).paragraphSpacing = A.paragraphSpacing ∧
      (A.appendModel B).paragraphSpacingBefore = A.paragraphSpacingBefore) ∧
    (AttributedString.appendModel
        { text := "AB", attributes := [{ range := ⟨0, 2⟩ }] }
        { text := "XY",
          attributes := [{ range := ⟨0, 2⟩, font := ⟨3⟩, colour := 0xff112233,
                           outlineColour := 0xff445566, outlineWidth := 2,
                           underlined := true, ligature := 0 }] }
      = { text := "ABXY",
          attributes := [{ range := ⟨0, 2⟩ },
                         { range := ⟨2, 4⟩, font := ⟨3⟩, colour := 0xff112233,
                           outlineColour := 0xff445566, outlineWidth := 2,
                           underlined := true, ligature := 0 }] }) :=
  ⟨fun A B => ⟨rfl, rfl, rfl, rfl, rfl, rfl, rfl, rfl, rfl⟩, by decide⟩

/-- C5: every append overload extends the stored text by the appended
string and appends exactly one new attribute beginning exactly where the
text previously ended and covering exactly the appended span, with font
and colour taken from the supplied override when given and otherwise
defaulted from the last existing attribute.  The optional arguments fo
and co range over the four overloads of the header (lines 70-77). -/
theorem C5_append_overloads (m : AttributedString) (s : String)
    (fo : Option Font) (co : Option Colour) (a : Attribute)
    (hlast : m.attributes.getLast? = some a) :
    (m.appendStr s fo co).text = m.text ++ s ∧
    (m.appendStr s fo co).attributes
      = m.attributes ++
        [{ range := ⟨(m.text.length : Int),
                     (m.text.length : Int) + (s.length : Int)⟩,
           font := fo.getD a.font,
           colour := co.getD a.colour }] := by
  refine ⟨rfl, ?_⟩
  have hf : m.lastFont = a.font := by
    unfold AttributedString.lastFont
    rw [hlast]
    rfl
  have hc : m.lastColour = a.colour := by
    unfold AttributedString.lastColour
    rw [hlast]
    rfl
  show m.attributes ++
      [{ range := ⟨(m.text.length : Int),
                   (m.text.length : Int) + (s.length : Int)⟩,
         font := fo.getD m.lastFont,
         colour := co.getD m.lastColour }] = _
  rw [hf, hc]

theorem C5_append_overloads_witness :
    ({ text := "AB",
       attributes := [{ range := ⟨0, 2⟩, font := ⟨4⟩, colour := 0xff010203 }] }
        : AttributedString).attributes.getLast?
      = some { range := ⟨0, 2⟩, font := ⟨4⟩, colour := 0xff010203 } ∧
    ((AttributedString.appendStr "CD" none (some 0xff0000ff)
        { text := "AB",
          attributes := [{ range := ⟨0, 2⟩, font := ⟨4⟩,
                           colour := 0xff010203 }] }).text
      = "AB" ++ "CD" ∧
     (AttributedString.appendStr "CD" none (some 0xff0000ff)
        { text := "AB",
          attributes := [{ range := ⟨0, 2⟩, font := ⟨4⟩,
                           colour := 0xff010203 }] }).attributes
      = [{ range := ⟨0, 2⟩, font := ⟨4⟩, colour := 0xff010203 }] ++
        [{ range := ⟨(("AB" : String).length : Int),
                     (("AB" : String).length : Int) + (("CD" : String).length : Int)⟩,
           font := (none : Option Font).getD (Font.mk 4),
           colour := (some 0xff0000ff).getD 0xff010203 }]) :=
  ⟨rfl,
   C5_append_overloads
     { text := "AB",
       attributes := [{ range := ⟨0, 2⟩, font := ⟨4⟩, colour := 0xff010203 }] }
     "CD" none (some 0xff0000ff)
     { range := ⟨0, 2⟩, font := ⟨4⟩, colour := 0xff010203 }
     rfl⟩

/-- C7: every range-scoped setter first intersects the supplied range
with the range from 0 to the text length, and a supplied range that is
empty or reversed leaves the model completely unchanged. -/
theorem C7_setters_clamp_and_noop (m : AttributedString) (r : Range)
    (c oc : Colour) (w : Rat) (f : Font) (u : Bool) (lg : Int) :
    (m.setColour r c = m.setColour (clampRange r (m.text.length : Int)) c ∧
      (r.stop ≤ r.start → m.setColour r c = m)) ∧
    (m.setOutlineColour r oc
        = m.setOutlineColour (clampRange r (m.text.length : Int)) oc ∧
      (r.stop ≤ r.start → m.setOutlineColour r oc = m)) ∧
    (m.setOutlineWidth r w
        = m.setOutlineWidth (clampRange r (m.text.length : Int)) w ∧
      (r.stop ≤ r.start → m.setOutlineWidth r w = m)) ∧
    (m.setFont r f = m.setFont (clampRange r (m.text.length : Int)) f ∧
      (r.stop ≤ r.start → m.setFont r f = m)) ∧
    (m.setUnderlined r u
        = m.setUnderlined (clampRange r (m.text.length : Int)) u ∧
      (r.stop ≤ r.start → m.setUnderlined r u = m)) ∧
    (m.setLigature r lg
        = m.setLigature (clampRange r (m.text.length : Int)) lg ∧
      (r.stop ≤ r.start → m.setLigature r lg = m)) :=
  ⟨⟨applyToRange_clamp _ r m, fun h => applyToRange_degenerate _ r m h⟩,
   ⟨applyToRange_clamp _ r m, fun h => applyToRange_degenerate _ r m h⟩,
   ⟨applyToRange_clamp _ r m, fun h => applyToRange_degenerate _ r m h⟩,
   ⟨applyToRange_clamp _ r m, fun h => applyToRange_degenerate _ r m h⟩,
   ⟨applyToRange_clamp _ r m, fun h => applyToRange_degenerate _ r m h⟩,
   ⟨applyToRange_clamp _ r m, fun h => applyToRange_degenerate _ r m h⟩⟩

theorem C7_setters_clamp_and_noop_witness :
    ((5 : Int) ≤ 5 ∧
      AttributedString.setColour ⟨5, 5⟩ 0xff111111
        { text := "hello", attributes := [{ range := ⟨0, 5⟩ }] }
        = { text := "hello", attributes := [{ range := ⟨0, 5⟩ }] }) ∧
    ((2 : Int) ≤ 9 ∧
      AttributedString.setLigature ⟨9, 2⟩ 0
        { text := "hello", attributes := [{ range := ⟨0, 5⟩ }] }
        = { text := "hello", attributes := [{ range := ⟨0, 5⟩ }] }) ∧
    AttributedString.setFont ⟨-3, 99⟩ ⟨6⟩
        { text := "hello", attributes := [{ range := ⟨0, 5⟩ }] }
      = AttributedString.setFont
          (clampRange ⟨-3, 99⟩
            ((({ text := "hello", attributes := [{ range := ⟨0, 5⟩ }] }
              : AttributedString).text.length : Int))) ⟨6⟩
          { text := "hello", attributes := [{ range := ⟨0, 5⟩ }] } :=
  ⟨⟨by decide,
    (C7_setters_clamp_and_noop
      { text := "hello", attributes := [{ range := ⟨0, 5⟩ }] }
      ⟨5, 5⟩ 0xff111111 0 0 ⟨0⟩ false 0).1.2 (by decide)⟩,
   ⟨by decide,
    (C7_setters_clamp_and_noop
      { text := "hello", attributes := [{ range := ⟨0, 5⟩ }] }
      ⟨9, 2⟩ 0 0 0 ⟨0⟩ false 0).2.2.2.2.2.2 (by decide)⟩,
   (C7_setters_clamp_and_noop
      { text := "hello", attributes := [{ range := ⟨0, 5⟩ }] }
      ⟨-3, 99⟩ 0 0 0 ⟨6⟩ false 0).2.2.2.1.1⟩

theorem applyClamped_eq_of_overlap (upd : Attribute → Attribute) (r : Range)
    (m : AttributedString) (h : ¬ r.stop ≤ r.start) :
    applyClamped upd r m
      = { m with attributes := (overwrite upd r (splitRangesAt r.stop (splitRangesAt r.start m.attributes))) } := by
  unfold applyClamped
  rw [if_neg h]

theorem applyClamped_idem (upd : Attribute → Attribute)
    (hupd : ∀ a, (upd a).range = a.range) (hupd2 : ∀ a, upd (upd a) = upd a)
    (r : Range) (m : AttributedString) :
    applyClamped upd r (applyClamped upd r m) = applyClamped upd r m := by
  by_cases h : r.stop ≤ r.start
  · rw [applyClamped_of_degenerate upd r m h,
        applyClamped_of_degenerate upd r m h]
  · have hA := applyClamped_attributes upd r m h
    have hns1 : noStraddle r.start (applyClamped upd r m).attributes := by
      rw [hA]
      exact noStraddle_overwrite upd r hupd _ _
        (noStraddle_splitRangesAt _ _ _ (noStraddle_splitRangesAt_self _ _))
    have hns2 : noStraddle r.stop (applyClamped upd r m).attributes := by
      rw [hA]
      exact noStraddle_overwrite upd r hupd _ _
        (noStraddle_splitRangesAt_self _ _)
    rw [applyClamped_eq_of_overlap upd r (applyClamped upd r m) h,
        splitRangesAt_of_noStraddle r.start _ hns1,
        splitRangesAt_of_noStraddle r.stop _ hns2, hA,
        overwrite_overwrite upd r hupd2 hupd, ← hA]

/-- C8: applying the whole-string setFont overload twice in a row yields
exactly the same attribute list as applying it once, for every model and
every font. -/
theorem C8_setFontAll_idempotent (m : AttributedString) (F : Font) :
    (AttributedString.setFontAll F (AttributedString.setFontAll F m)).attributes
      = (AttributedString.setFontAll F m).attributes := by
  have h2 : AttributedString.setFontAll F (AttributedString.setFontAll F m)
      = AttributedString.setFontAll F m := by
    rw [setFontAll_eq F (AttributedString.setFontAll F m), setFontAll_eq F m,
        text_applyClamped]
    exact applyClamped_idem (fun a => { a with font := F })
      (fun a => rfl) (fun a => rfl) _ m
  rw [h2]

/-- C9: for every sequence of saveState calls each paired with a matching
restoreState, with arbitrary state-changing calls in between, the fill,
font, transform and clip bounds observed immediately after the last
restoreState equal those observed immediately before the first
saveState. -/
theorem C9_save_restore_parity (w : List COp) (s : GState) (st : List GState)
    (hp : PairedSeq w) :
    (execC w (s, st)).1.fillType = s.fillType ∧
    (execC w (s, st)).1.font = s.font ∧
    (execC w (s, st)).1.transform = s.transform ∧
    (execC w (s, st)).1.clip = s.clip := by
  rw [pairedSeq_exec w hp s st]
  exact ⟨rfl, rfl, rfl, rfl⟩

theorem C9_save_restore_parity_witness :
    PairedSeq [COp.saveState, COp.setFill ⟨1⟩, COp.saveState, COp.setFontOp ⟨2⟩,
      COp.restoreState, COp.restoreState] ∧
    ((execC [COp.saveState, COp.setFill ⟨1⟩, COp.saveState, COp.setFontOp ⟨2⟩,
        COp.restoreState, COp.restoreState]
        (⟨⟨5⟩, ⟨7⟩, [3], ⟨0, 0, 9, 9⟩⟩, [])).1.fillType
          = (⟨⟨5⟩, ⟨7⟩, [3], ⟨0, 0, 9, 9⟩⟩ : GState).fillType ∧
     (execC [COp.saveState, COp.setFill ⟨1⟩, COp.saveState, COp.setFontOp ⟨2⟩,
        COp.restoreState, COp.restoreState]
        (⟨⟨5⟩, ⟨7⟩, [3], ⟨0, 0, 9, 9⟩⟩, [])).1.font
          = (⟨⟨5⟩, ⟨7⟩, [3], ⟨0, 0, 9, 9⟩⟩ : GState).font ∧
     (execC [COp.saveState, COp.setFill ⟨1⟩, COp.saveState, COp.setFontOp ⟨2⟩,
        COp.restoreState, COp.restoreState]
        (⟨⟨5⟩, ⟨7⟩, [3], ⟨0, 0, 9, 9⟩⟩, [])).1.transform
          = (⟨⟨5⟩, ⟨7⟩, [3], ⟨0, 0, 9, 9⟩⟩ : GState).transform ∧
     (execC [COp.saveState, COp.setFill ⟨1⟩, COp.saveState, COp.setFontOp ⟨2⟩,
        COp.restoreState, COp.restoreState]
        (⟨⟨5⟩, ⟨7⟩, [3], ⟨0, 0, 9, 9⟩⟩, [])).1.clip
          = (⟨⟨5⟩, ⟨7⟩, [3], ⟨0, 0, 9, 9⟩⟩ : GState).clip) := by
  have hb : Balanced [COp.setFill ⟨1⟩, COp.saveState, COp.setFontOp ⟨2⟩,
      COp.restoreState] := by
    apply Balanced.fillStep
    exact Balanced.nest [COp.setFontOp ⟨2⟩] []
      (Balanced.fontStep ⟨2⟩ [] Balanced.nil) Balanced.nil
  have hp : PairedSeq [COp.saveState, COp.setFill ⟨1⟩, COp.saveState,
      COp.setFontOp ⟨2⟩, COp.restoreState, COp.restoreState] :=
    PairedSeq.cons _ _ hb PairedSeq.nil
  exact ⟨hp, C9_save_restore_parity _ _ _ hp⟩

/-- C1: after every sequence of append, setFont, setColour,
setOutlineColour, setOutlineWidth, setUnderlined, setLigature and clear
calls on a model satisfying the partition invariant, the attribute list
is a contiguous partition of the text: consecutive attributes meet
exactly, and whenever the text is non-empty the first attribute starts at
0 and the last attribute ends at the text length. -/
theorem C1_partition_invariant (m : AttributedString) (ops : List Op)
    (h : Invariant m) :
    contiguous (applySeq ops m).attributes ∧
    ((applySeq ops m).text ≠ "" →
      headStart (applySeq ops m).attributes = some 0 ∧
      lastStop (applySeq ops m).attributes
        = some ((applySeq ops m).text.length : Int)) := by
  obtain ⟨hc, hends, hne⟩ := invariant_applySeq ops m h
  refine ⟨hc, fun ht => ?_⟩
  rcases hends with hnil | hr
  · exact absurd hnil (hne ht)
  · exact hr

theorem C1_partition_invariant_witness :
    Invariant ({} : AttributedString) ∧
    (contiguous (applySeq [Op.append "ab" none none,
        Op.setColourR ⟨0, 1⟩ 0xffff0000] {}).attributes ∧
     ((applySeq [Op.append "ab" none none,
        Op.setColourR ⟨0, 1⟩ 0xffff0000] {}).text ≠ "" →
      headStart (applySeq [Op.append "ab" none none,
        Op.setColourR ⟨0, 1⟩ 0xffff0000] {}).attributes = some 0 ∧
      lastStop (applySeq [Op.append "ab" none none,
        Op.setColourR ⟨0, 1⟩ 0xffff0000] {}).attributes
        = some (((applySeq [Op.append "ab" none none,
            Op.setColourR ⟨0, 1⟩ 0xffff0000] {}).text.length : Int)))) :=
  ⟨by decide,
   C1_partition_invariant {}
     [Op.append "ab" none none, Op.setColourR ⟨0, 1⟩ 0xffff0000]
     (by decide)⟩

end juce
